import Mathlib

set_option linter.unusedVariables false

/-! Verification of the collaborative drawing engine of this repository:
the socket server's per-room event buffer (server.js, `socket.on('drawing')`)
and the `AdvancedDrawingModule` class bundled in the same file (layers,
history, brush parameter mapping, input stabilizer, remote stroke
reconstruction, stroke replay).

JS numbers are modelled as exact rationals (`ℚ`), JS arrays as `List`,
the canvas raster of a layer as the list of stroke records drawn onto it
since it was last cleared, and `Math.random()` as an explicit stream of
rationals consumed in call order. -/

/-- A canvas point, exact rational coordinates. -/
structure Pt where
  x : ℚ
  y : ℚ
deriving DecidableEq

/-- JS `a || b` for numeric fields: `0` (and a missing field) is falsy. -/
def jsOrQ (a b : ℚ) : ℚ := if a = 0 then b else a

/-- JS `a || b` for string fields: the empty string (and a missing field) is falsy. -/
def jsOrS (a b : String) : String := if a = "" then b else a

/-! ## Server-side per-room drawing event buffer (server.js lines 130-165) -/

/-- A wire event as stored in the server's per-room `drawings` buffer. Only
its `type` drives the buffering logic; `seq` stands for the remaining
payload, so that distinct events are distinguishable. -/
structure SEvent where
  etype : String
  seq : ℕ
deriving DecidableEq

/-- The buffer update performed by the server's `drawing` handler: only
`start`/`clear`/`clearAll` events are stored; once the buffer holds 1000
entries, a `clear`/`clearAll` resets it to just that event, while any other
stored event drops the 100 oldest entries before being appended. -/
def storeDrawing (buf : List SEvent) (e : SEvent) : List SEvent :=
  if e.etype = "start" ∨ e.etype = "clear" ∨ e.etype = "clearAll" then
    if 1000 ≤ buf.length then
      if e.etype = "clear" ∨ e.etype = "clearAll" then [e]
      else buf.drop 100 ++ [e]
    else buf ++ [e]
  else buf

/-- Buffer contents after feeding `n` sequential `start` events to a fresh room. -/
def bufAfterStarts (n : ℕ) : List SEvent :=
  (List.range n).foldl (fun b i => storeDrawing b ⟨"start", i⟩) []

/-! ## Input stabilizer (`_getStabilizedPoint`, server.js lines 1328-1358) -/

/-- The weight the stabilizer loop gives the i-th of `N` selected samples. -/
def rawWeight (N i : ℕ) : ℚ := ((i : ℚ) + 1) / N

/-- The total weight accumulated by the stabilizer loop over `N` samples. -/
def weightSum (N : ℕ) : ℚ := ((List.range N).map (rawWeight N)).sum

/-- The recency-weighted average the stabilizer computes over the selected
trailing samples (`recent`): weighted coordinate sums divided by the total
weight. -/
def weightedAvg (recent : List Pt) : Pt :=
  let N := recent.length
  ⟨((List.range N).map (fun i => (recent.getD i ⟨0, 0⟩).x * rawWeight N i)).sum / weightSum N,
   ((List.range N).map (fun i => (recent.getD i ⟨0, 0⟩).y * rawWeight N i)).sum / weightSum N⟩

/-- The trailing window the stabilizer selects: the last
`min stab points.length` raw samples. -/
def trailWindow (stab : ℕ) (points : List Pt) : List Pt :=
  points.drop (points.length - min stab points.length)

/-- `_getStabilizedPoint`: with the stabilizer disabled or no buffered points,
the latest raw point (or the origin if there is none); otherwise the
recency-weighted average over the trailing window. -/
def getStabilizedPoint (stab : ℕ) (points : List Pt) : Pt :=
  if stab = 0 ∨ points = [] then points.getLastD ⟨0, 0⟩
  else weightedAvg (trailWindow stab points)

/-- Normalized stabilizer weight, as the spec words it: the raw weight
`(i+1)/N` normalized by the sum of the weights. -/
def stabWeight (N i : ℕ) : ℚ := rawWeight N i / weightSum N

/-- The convex combination of a window of points under the normalized
stabilizer weights. -/
def convexPt (w : List Pt) : Pt :=
  ⟨((List.range w.length).map (fun i => stabWeight w.length i * (w.getD i ⟨0, 0⟩).x)).sum,
   ((List.range w.length).map (fun i => stabWeight w.length i * (w.getD i ⟨0, 0⟩).y)).sum⟩

/-! ## Brush parameter mapping (`_updateBrushSettings` lines 721-786 and the
settings block of `_replayPath` lines 872-918) -/

/-- The concrete rendering parameters a brush configuration resolves to. -/
structure BrushParams where
  alpha : ℚ
  width : ℚ
  comp : String
  cap : String
  join : String
  strokeStyle : String
deriving DecidableEq

/-- The parameter mapping of `_updateBrushSettings`, used for local drawing. -/
def localBrushParams (brush : String) (size opacity : ℚ) (blendMode color : String) :
    BrushParams :=
  if brush = "pen" then ⟨opacity, size, blendMode, "round", "round", color⟩
  else if brush = "pencil" then
    ⟨opacity * 0.8, size * 0.5, "source-over", "round", "round", color⟩
  else if brush = "brush" then ⟨opacity * 0.9, size * 2, blendMode, "round", "round", color⟩
  else if brush = "marker" then ⟨0.6, size * 3, "multiply", "square", "miter", color⟩
  else if brush = "eraser" then ⟨1, size * 2, "destination-out", "round", "round", "#000000"⟩
  else if brush = "airbrush" then ⟨0.2, size * 0.5, blendMode, "round", "round", color⟩
  else ⟨opacity, size, blendMode, "round", "round", color⟩

/-- The parameter mapping at the head of `_replayPath`: a base assignment from
the recorded stroke parameters, then per-brush overrides. Note the `pencil`
case overrides only alpha and width, leaving the composite operation at the
recorded blend mode. -/
def replayBrushParams (brush : String) (size opacity : ℚ) (blendMode color : String) :
    BrushParams :=
  let base : BrushParams := ⟨opacity, size, blendMode, "round", "round", color⟩
  if brush = "pencil" then { base with alpha := opacity * 0.8, width := size * 0.5 }
  else if brush = "brush" then { base with alpha := opacity * 0.9, width := size * 2 }
  else if brush = "marker" then
    { base with alpha := 0.6, comp := "multiply", width := size * 3,
                cap := "square", join := "miter" }
  else if brush = "eraser" then
    { base with alpha := 1, comp := "destination-out", width := size * 2,
                strokeStyle := "#000000" }
  else if brush = "airbrush" then { base with alpha := 0.2, width := size * 0.5 }
  else base

/-! ## Stroke records, history entries and layer surfaces -/

/-- A recorded stroke: the fields of a `type: 'path'` history entry and of the
remote-stroke builder `_remoteDrawing`, which have the same shape. -/
structure StrokeData where
  layerIndex : ℕ
  color : String
  size : ℚ
  brush : String
  opacity : ℚ
  blendMode : String
  points : List Pt
deriving DecidableEq

/-- A history entry: a completed stroke, a single-layer clear, or a clear-all. -/
inductive HEntry where
  | path (d : StrokeData)
  | clearL (layerIndex : ℕ)
  | clearAllL
deriving DecidableEq

/-- The offscreen layer canvases, keyed by layer index as in
`offscreenCanvases`; a surface is the list of strokes drawn onto it since it
was last cleared, and an untouched surface is empty. -/
def Canvases : Type := ℕ → List StrokeData

/-- All surfaces blank. -/
def emptyCanvases : Canvases := fun _ => []

/-- Draw one stroke onto the surface of layer `li`. -/
def drawOn (c : Canvases) (li : ℕ) (d : StrokeData) : Canvases :=
  fun j => if j = li then c j ++ [d] else c j

/-- `clearRect` over the full surface of layer `li`. -/
def clearCanvas (c : Canvases) (li : ℕ) : Canvases :=
  fun j => if j = li then [] else c j

/-- `_clearAllLayers`: clears the surfaces of layers `0 .. n-1`, where `n` is
the current layer count; surfaces at higher indices are not touched. -/
def clearAllUpTo (c : Canvases) (n : ℕ) : Canvases :=
  fun j => if j < n then [] else c j

/-- `_applyAction`: apply one history entry to the layer surfaces (`n` is the
current layer count, used by the clear-all case). -/
def applyAction (n : ℕ) (c : Canvases) : HEntry → Canvases
  | .path d => drawOn c d.layerIndex d
  | .clearL li => clearCanvas c li
  | .clearAllL => clearAllUpTo c n

/-- `_replayPaths`: apply a list of history entries in order. -/
def replayPaths (n : ℕ) (c : Canvases) (as : List HEntry) : Canvases :=
  as.foldl (applyAction n) c

/-- Whether a history entry only touches layer surfaces below index `n`. -/
def entryOK (n : ℕ) : HEntry → Bool
  | .path d => decide (d.layerIndex < n)
  | .clearL li => decide (li < n)
  | .clearAllL => true

/-! ## The drawing module state -/

/-- One entry of the `layers` array. -/
structure Layer where
  idx : ℕ
  name : String
  visible : Bool
  opacity : ℚ
deriving DecidableEq

/-- A message emitted on the socket (channel and the `type` field of its payload). -/
structure OutMsg where
  channel : String
  mtype : String
deriving DecidableEq

/-- The state of an `AdvancedDrawingModule` instance, restricted to the fields
the verified operations read or write. The incremental painting that the
mouse/remote `move` handlers perform on the live canvas is raster output
only; it is modelled by the replay trace semantics further below, while the
stroke records that end up on the layer surfaces are modelled here. -/
structure DM where
  paths : List HEntry
  redoPaths : List HEntry
  layers : List Layer
  currentLayerIndex : ℕ
  canvases : Canvases
  remoteDrawing : Option StrokeData
  remoteLastX : ℚ
  remoteLastY : ℚ
  outbox : List OutMsg
  hasSocket : Bool

/-- Appends a message to the outbox when a socket is attached (`_sendDrawing`
/ `_sendLayerAction` guard). -/
def pushOut (s : DM) (m : OutMsg) : List OutMsg :=
  if s.hasSocket then s.outbox ++ [m] else s.outbox

/-- Module state right after the constructor ran: one `Background` layer,
empty history, no remote builder. -/
def mkDM : DM where
  paths := []
  redoPaths := []
  layers := [⟨0, "Background", true, 1⟩]
  currentLayerIndex := 0
  canvases := emptyCanvases
  remoteDrawing := none
  remoteLastX := 0
  remoteLastY := 0
  outbox := []
  hasSocket := true

/-! ## History (`_addToHistory`, `undo`, `redo`) -/

/-- `_addToHistory`: clear the redo stack, push the entry, shift the oldest
entry off when the stack has grown past 50. -/
def addToHistory (s : DM) (a : HEntry) : DM :=
  let p := s.paths ++ [a]
  { s with redoPaths := [], paths := if 50 < p.length then p.drop 1 else p }

/-- `undo()`: fails on an empty undo stack; otherwise pops the last entry onto
the redo stack, clears all layer surfaces and replays the remaining entries,
then emits an `undo` drawing message. -/
def undo (s : DM) : Bool × DM :=
  match s.paths.getLast? with
  | none => (false, s)
  | some a =>
    let remaining := s.paths.dropLast
    (true,
      { s with
        paths := remaining
        redoPaths := s.redoPaths ++ [a]
        canvases := replayPaths s.layers.length
          (clearAllUpTo s.canvases s.layers.length) remaining
        outbox := pushOut s ⟨"drawing", "undo"⟩ })

/-- `redo()`: fails on an empty redo stack; otherwise pops the last redo entry
onto the undo stack, applies just that entry, then emits a `redo` drawing
message. -/
def redo (s : DM) : Bool × DM :=
  match s.redoPaths.getLast? with
  | none => (false, s)
  | some a =>
    (true,
      { s with
        redoPaths := s.redoPaths.dropLast
        paths := s.paths ++ [a]
        canvases := applyAction s.layers.length s.canvases a
        outbox := pushOut s ⟨"drawing", "redo"⟩ })

/-! ## Layer operations -/

/-- `_addLayer`: push a layer whose stable `idx` is the current length; an
empty name gets the default `Layer N` name. -/
def mkLayer (len : ℕ) (name : String) : Layer :=
  ⟨len, if name = "" then "Layer " ++ toString (len + 1) else name, true, 1⟩

/-- Public `addLayer`: append the layer and select it. -/
def addLayerP (s : DM) (name : String) : ℕ × DM :=
  let index := s.layers.length
  ⟨index,
    { s with
      layers := s.layers ++ [mkLayer s.layers.length name]
      currentLayerIndex := index
      outbox := pushOut s ⟨"layerAction", "add"⟩ }⟩

/-- JS `Array.prototype.splice(i, 1)`: a negative start counts from the end
(clamped at 0), a start past the end removes nothing. -/
def spliceRemoveAt {α : Type} (l : List α) (i : ℤ) : List α :=
  let s : ℕ := if i < 0 then ((l.length : ℤ) + i).toNat else min i.toNat l.length
  l.take s ++ l.drop (s + 1)

/-- `removeLayer`: refuses to remove the last layer; otherwise splices the
layer out and clamps `currentLayerIndex` back into range. -/
def removeLayerP (s : DM) (i : ℤ) : Bool × DM :=
  if s.layers.length ≤ 1 then (false, s)
  else
    let layers' := spliceRemoveAt s.layers i
    (true,
      { s with
        layers := layers'
        currentLayerIndex :=
          if layers'.length ≤ s.currentLayerIndex then layers'.length - 1
          else s.currentLayerIndex
        outbox := pushOut s ⟨"layerAction", "remove"⟩ })

/-- `selectLayer`: select the index when it is in range. -/
def selectLayerP (s : DM) (i : ℤ) : Bool × DM :=
  if 0 ≤ i ∧ i < (s.layers.length : ℤ) then
    (true, { s with currentLayerIndex := i.toNat })
  else (false, s)

/-- Swap the elements at positions `k` and `k+1` (the destructuring swap of
`moveLayerUp`/`moveLayerDown`); out-of-range positions leave the list as is. -/
def swapAdj {α : Type} : List α → ℕ → List α
  | [], _ => []
  | [a], _ => [a]
  | a :: b :: t, 0 => b :: a :: t
  | a :: b :: t, n + 1 => a :: swapAdj (b :: t) n

/-- `moveLayerUp(index)`: swap with the next layer when `0 ≤ index <
length - 1`, remapping `currentLayerIndex` if it pointed at either slot. -/
def moveLayerUpP (s : DM) (i : ℤ) : Bool × DM :=
  if 0 ≤ i ∧ i < (s.layers.length : ℤ) - 1 then
    let k := i.toNat
    (true,
      { s with
        layers := swapAdj s.layers k
        currentLayerIndex :=
          if s.currentLayerIndex = k then k + 1
          else if s.currentLayerIndex = k + 1 then k
          else s.currentLayerIndex
        outbox := pushOut s ⟨"layerAction", "move"⟩ })
  else (false, s)

/-- `moveLayerDown(index)`: swap with the previous layer when `0 < index <
length`, remapping `currentLayerIndex` if it pointed at either slot. -/
def moveLayerDownP (s : DM) (i : ℤ) : Bool × DM :=
  if 0 < i ∧ i < (s.layers.length : ℤ) then
    let k := i.toNat
    (true,
      { s with
        layers := swapAdj s.layers (k - 1)
        currentLayerIndex :=
          if s.currentLayerIndex = k then k - 1
          else if s.currentLayerIndex = k - 1 then k
          else s.currentLayerIndex
        outbox := pushOut s ⟨"layerAction", "move"⟩ })
  else (false, s)

/-- Default layer value for `getD` lookups in theorem statements. -/
def layerDefault : Layer := ⟨0, "", true, 1⟩

/-- Layer-list invariant: at least one layer, and the selection in range. -/
def LayerInv (s : DM) : Prop :=
  s.layers ≠ [] ∧ s.currentLayerIndex < s.layers.length

/-! ## Remote drawing messages -/

/-- An inbound `drawing` message as seen by `_handleRemoteDrawing`. Missing
JS fields behave as falsy, i.e. `0` for numbers and `""` for strings, which
is exactly how the handler's `||` defaults treat them. There is no sender
field on the wire. -/
structure RMsg where
  rtype : String
  x : ℚ
  y : ℚ
  layerIndex : ℕ
  color : String
  size : ℚ
  brush : String
  opacity : ℚ
  blendMode : String
deriving DecidableEq

/-- Fuel-counted body of the layer auto-extension loop of
`_startRemoteDrawing` (`while (this.layers.length <= layerIndex) _addLayer`);
the fuel is the exact number of iterations left. -/
def extendLayersGo (li : ℕ) : ℕ → List Layer → List Layer
  | 0, l => l
  | fuel + 1, l =>
    if l.length ≤ li then
      extendLayersGo li fuel
        (l ++ [⟨l.length, "Remote Layer " ++ toString (l.length + 1), true, 1⟩])
    else l

/-- Auto-extend the layer list so that index `li` exists. -/
def extendLayers (l : List Layer) (li : ℕ) : List Layer :=
  extendLayersGo li (li + 1 - l.length) l

/-- `_startRemoteDrawing`: auto-extend layers, then (over)write the single
`_remoteDrawing` builder with the message's parameters (JS `||` defaults)
and its first point. -/
def startRemote (s : DM) (m : RMsg) : DM :=
  let li := m.layerIndex
  { s with
    layers := extendLayers s.layers li
    remoteDrawing := some
      ⟨li, jsOrS m.color "#000000", jsOrQ m.size 5, jsOrS m.brush "pen",
        jsOrQ m.opacity 1, jsOrS m.blendMode "source-over", [⟨m.x, m.y⟩]⟩
    remoteLastX := m.x
    remoteLastY := m.y }

/-- `_moveRemoteDrawing`: no-op without an active builder; otherwise append
the point to the builder and advance the last position. -/
def moveRemote (s : DM) (m : RMsg) : DM :=
  match s.remoteDrawing with
  | none => s
  | some b =>
    { s with
      remoteDrawing := some { b with points := b.points ++ [⟨m.x, m.y⟩] }
      remoteLastX := m.x
      remoteLastY := m.y }

/-- `_endRemoteDrawing`: no-op without an active builder; otherwise record the
builder's data (with its full point sequence) into history and discard the
builder. -/
def endRemote (s : DM) (m : RMsg) : DM :=
  match s.remoteDrawing with
  | none => s
  | some b => { addToHistory s (.path b) with remoteDrawing := none }

/-- `_handleRemoteDrawing`: dispatch an inbound drawing message. `undo` and
`redo` invoke the same entry points used for local actions. -/
def handleRemoteDrawing (s : DM) (m : RMsg) : DM :=
  if m.rtype = "start" then startRemote s m
  else if m.rtype = "move" then moveRemote s m
  else if m.rtype = "end" then endRemote s m
  else if m.rtype = "clear" then
    if m.layerIndex < s.layers.length then
      { s with canvases := clearCanvas s.canvases m.layerIndex }
    else s
  else if m.rtype = "clearAll" then
    { s with canvases := clearAllUpTo s.canvases s.layers.length }
  else if m.rtype = "undo" then (undo s).2
  else if m.rtype = "redo" then (redo s).2
  else s

/-! ## Spec-side per-peer builder model (for comparison with the code) -/

/-- An inbound message together with the identity of its sending peer, which
the transport layer knows but the wire `drawing` payload does not carry. -/
structure TaggedMsg where
  peer : String
  msg : RMsg

/-- State of the spec-side model: one builder per peer, plus recorded history. -/
structure PerPeerState where
  builders : List (String × StrokeData)
  history : List HEntry

/-- Spec-side model of the remote stroke builder, following the spec's words:
builders are keyed by the sending peer, a `start` opens (or overwrites) that
peer's builder, each `move` appends to that peer's builder, and `end`
records that peer's builder into history and discards it. -/
def perPeerStep (st : PerPeerState) (t : TaggedMsg) : PerPeerState :=
  if t.msg.rtype = "start" then
    { st with
      builders :=
        (t.peer,
          ⟨t.msg.layerIndex, jsOrS t.msg.color "#000000", jsOrQ t.msg.size 5,
            jsOrS t.msg.brush "pen", jsOrQ t.msg.opacity 1,
            jsOrS t.msg.blendMode "source-over", [⟨t.msg.x, t.msg.y⟩]⟩) ::
          st.builders.filter (fun p => ¬(p.1 = t.peer)) }
  else if t.msg.rtype = "move" then
    match st.builders.lookup t.peer with
    | none => st
    | some b =>
      { st with
        builders :=
          (t.peer, { b with points := b.points ++ [⟨t.msg.x, t.msg.y⟩] }) ::
            st.builders.filter (fun p => ¬(p.1 = t.peer)) }
  else if t.msg.rtype = "end" then
    match st.builders.lookup t.peer with
    | none => st
    | some b =>
      { builders := st.builders.filter (fun p => ¬(p.1 = t.peer))
        history := st.history ++ [.path b] }
  else st

/-- Run the spec-side per-peer model over a tagged message sequence. -/
def perPeerRun (ms : List TaggedMsg) : PerPeerState :=
  ms.foldl perPeerStep ⟨[], []⟩

/-- Run the code's handler over the same tagged sequence: the handler only
sees the wire payload, never the sender. -/
def codeRun (s : DM) (ms : List TaggedMsg) : DM :=
  ms.foldl (fun s t => handleRemoteDrawing s t.msg) s

/-- A `start` message at a given point with every optional field absent. -/
def startMsgAt (px py : ℚ) : RMsg := ⟨"start", px, py, 0, "", 0, "", 0, ""⟩

/-- An `end` message with every optional field absent. -/
def endMsg : RMsg := ⟨"end", 0, 0, 0, "", 0, "", 0, ""⟩

/-- The interleaving used to separate the two builder models: peer A starts,
peer B starts, then A's stroke ends. -/
def interleavedMsgs : List TaggedMsg :=
  [⟨"A", startMsgAt 1 1⟩, ⟨"B", startMsgAt 2 2⟩, ⟨"A", endMsg⟩]

/-! ## Replay trace semantics (`_replayPath`, server.js lines 872-965) -/

/-- One canvas command issued while replaying a stroke. Airbrush spray
commands record the exact `Math.random()` draws that parameterize them
(angle parameter, computed spray radius, computed arc radius, computed
alpha); the spray position is `base + (cos(2π·angleU), sin(2π·angleU)) ·
radius`, kept symbolic here because the trigonometric values are
irrational. -/
inductive COp where
  | setCtx (p : BrushParams)
  | beginP
  | moveT (p : Pt)
  | lineT (p : Pt)
  | quadT (c p : Pt)
  | strokeC
  | sprayArc (base : Pt) (angleU radius arcRadius : ℚ)
  | setFill (c : String)
  | alphaC (a : ℚ)
  | fillC
deriving DecidableEq

/-- Iteration count of `for (let i = 0; i < size; i++)` for a JS number
`size`. -/
def sprayCount (size : ℚ) : ℕ := if size ≤ 0 then 0 else Nat.ceil size

/-- The spray particles emitted for one stroke point: each particle consumes
four `Math.random()` draws (angle, spray radius, arc radius, alpha) and
issues `beginPath; arc; fillStyle; globalAlpha; fill`. Returns the commands
and the remaining random stream. -/
def particleOps (base : Pt) (color : String) (size : ℚ) :
    ℕ → List ℚ → List COp × List ℚ
  | 0, rng => ([], rng)
  | n + 1, rng =>
    let u1 := rng.headD 0
    let u2 := (rng.tail).headD 0
    let u3 := (rng.tail.tail).headD 0
    let u4 := (rng.tail.tail.tail).headD 0
    let rest := particleOps base color size n rng.tail.tail.tail.tail
    (COp.beginP :: COp.sprayArc base u1 (u2 * size * 3) (u3 * (3 / 2)) ::
      COp.setFill color :: COp.alphaC (u4 * (1 / 10)) :: COp.fillC :: rest.1,
      rest.2)

/-- The airbrush spray block of `_replayPath`: `size` particles per recorded
point, consuming the random stream left to right. -/
def sprayAllOps (color : String) (size : ℚ) :
    List Pt → List ℚ → List COp × List ℚ
  | [], rng => ([], rng)
  | p :: ps, rng =>
    let first := particleOps p color size (sprayCount size) rng
    let rest := sprayAllOps color size ps first.2
    (first.1 ++ rest.1, rest.2)

/-- The quadratic-smoothing loop of `_replayPath`: the first segment is a
line to the first midpoint, later segments are quadratic curves through the
previous point to the running midpoint. -/
def midSegOps (points : List Pt) : List COp :=
  (List.range (points.length - 1)).map (fun k =>
    let pPrev := points.getD k ⟨0, 0⟩
    let pCur := points.getD (k + 1) ⟨0, 0⟩
    let mid : Pt := ⟨(pCur.x + pPrev.x) / 2, (pCur.y + pPrev.y) / 2⟩
    if k = 0 then COp.lineT mid else COp.quadT pPrev mid)

/-- The full canvas command trace `_replayPath` issues for a recorded stroke,
given the `Math.random()` stream: brush settings, the smoothed path with its
closing line segment and `stroke()`, then — for the airbrush only — the
random spray block. -/
def replayPathTrace (d : StrokeData) (rng : List ℚ) : List COp :=
  COp.setCtx (replayBrushParams d.brush d.size d.opacity d.blendMode d.color) ::
    (if d.points = [] then []
     else
       [COp.beginP, COp.moveT (d.points.headD ⟨0, 0⟩)] ++ midSegOps d.points ++
         (if 1 < d.points.length then [COp.lineT (d.points.getLastD ⟨0, 0⟩)] else []) ++
         [COp.strokeC] ++
         (if d.brush = "airbrush" then (sprayAllOps d.color d.size d.points rng).1
          else []))

/-- An airbrush stroke used to exhibit the replay randomness. -/
def dAir : StrokeData :=
  ⟨0, "#ff0000", 1, "airbrush", 1, "source-over", [⟨0, 0⟩, ⟨1, 1⟩]⟩

/-- A concrete consistent module state used to witness the undo/redo
round-trip: one recorded stroke on the background layer, surfaces equal to
the replay of the history. -/
def penStroke : StrokeData :=
  ⟨0, "#000000", 5, "pen", 1, "source-over", [⟨0, 0⟩, ⟨3, 4⟩]⟩

/-- Witness state for the round-trip: history of two entries, canvases
obtained by replaying that history from blank surfaces. -/
def dmRT : DM :=
  { mkDM with
    paths := [.path penStroke, .clearL 0, .path penStroke]
    canvases := replayPaths 1 emptyCanvases [.path penStroke, .clearL 0, .path penStroke] }

/-- A three-layer module state used to witness the layer reordering claims. -/
def dm3 : DM :=
  { mkDM with
    layers := [⟨0, "A", true, 1⟩, ⟨1, "B", true, 1⟩, ⟨2, "C", true, 1⟩]
    currentLayerIndex := 0 }

/-! # Theorems -/

/-! ## C2: server buffer eviction -/

theorem bufAfterStarts_succ (n : ℕ) :
    bufAfterStarts (n + 1) = storeDrawing (bufAfterStarts n) ⟨"start", n⟩ := by
  unfold bufAfterStarts
  rw [List.range_succ, List.foldl_append]
  rfl

theorem bufAfterStarts_len (n : ℕ) (h : n ≤ 1000) : (bufAfterStarts n).length = n := by
  induction n with
  | zero => rfl
  | succ k ih =>
    have hk : (bufAfterStarts k).length = k := ih (by omega)
    have hlt : ¬ 1000 ≤ (bufAfterStarts k).length := by omega
    rw [bufAfterStarts_succ]
    unfold storeDrawing
    rw [if_pos (Or.inl rfl), if_neg hlt]
    simp [hk]

theorem store_start_at_capacity (l : List SEvent) (n : ℕ) (h : l.length = 1000) :
    (storeDrawing l ⟨"start", n⟩).length = 901 := by
  unfold storeDrawing
  rw [if_pos (Or.inl rfl), if_pos (by omega), if_neg (by simp)]
  simp [h]

/-- C2 (amended): feeding 1001 sequential `start` events to a fresh room
leaves exactly 901 events after the first overflow; a `clear`/`clearAll`
collapses the buffer to that single event only when the buffer is at
capacity (≥ 1000 entries); below capacity any stored event — a clear
included — is simply appended; a non-clear stored event at capacity drops
the 100 oldest entries and is appended. -/
theorem buffer_eviction_claim :
    (bufAfterStarts 1001).length = 901 ∧
    (∀ (buf : List SEvent) (e : SEvent), 1000 ≤ buf.length →
      (e.etype = "clear" ∨ e.etype = "clearAll") → storeDrawing buf e = [e]) ∧
    (∀ (buf : List SEvent) (e : SEvent), buf.length < 1000 →
      (e.etype = "start" ∨ e.etype = "clear" ∨ e.etype = "clearAll") →
      storeDrawing buf e = buf ++ [e]) ∧
    (∀ (buf : List SEvent) (e : SEvent), 1000 ≤ buf.length → e.etype = "start" →
      storeDrawing buf e = buf.drop 100 ++ [e]) := by
  refine ⟨?_, ?_, ?_, ?_⟩
  · rw [show (1001 : ℕ) = 1000 + 1 from rfl, bufAfterStarts_succ]
    exact store_start_at_capacity (bufAfterStarts 1000) 1000 (bufAfterStarts_len 1000 le_rfl)
  · intro buf e h1 h2
    unfold storeDrawing
    rw [if_pos (Or.inr h2), if_pos h1, if_pos h2]
  · intro buf e h1 h2
    unfold storeDrawing
    rw [if_pos h2, if_neg (by omega)]
  · intro buf e h1 h2
    unfold storeDrawing
    rw [if_pos (Or.inl h2), if_pos h1, if_neg (by rw [h2]; decide)]

theorem buffer_eviction_claim_witness :
    storeDrawing (List.replicate 1000 ⟨"start", 0⟩) ⟨"clear", 1⟩ = [⟨"clear", 1⟩] :=
  buffer_eviction_claim.2.1 _ _ (by simp only [List.length_replicate]; exact le_rfl)
    (Or.inl rfl)

/-- C2 counterexample to the claim as stated: feeding a `clear` to a buffer
holding a single event does not collapse it to length 1 — the clear is
appended, giving length 2. -/
theorem buffer_clear_counterexample :
    (storeDrawing [⟨"start", 0⟩] ⟨"clear", 1⟩).length = 2 ∧
    storeDrawing [⟨"start", 0⟩] ⟨"clear", 1⟩ ≠ [(⟨"clear", 1⟩ : SEvent)] := by
  decide

/-! ## C3: input stabilizer -/

theorem list_sum_map_div (l : List ℕ) (f : ℕ → ℚ) (c : ℚ) :
    (l.map fun i => f i / c).sum = (l.map f).sum / c := by
  induction l with
  | nil => simp
  | cons a t ih => simp [ih, add_div]

theorem sum_range_add_one (N : ℕ) :
    ((List.range N).map fun i : ℕ => ((i : ℚ) + 1)).sum = N * (N + 1) / 2 := by
  induction N with
  | zero => simp
  | succ n ih =>
    rw [List.range_succ, List.map_append, List.sum_append, ih]
    simp only [List.map_cons, List.map_nil, List.sum_cons, List.sum_nil]
    push_cast
    ring

theorem weightSum_eq (N : ℕ) (h : 1 ≤ N) : weightSum N = ((N : ℚ) + 1) / 2 := by
  have hN : (N : ℚ) ≠ 0 := Nat.cast_ne_zero.mpr (by omega)
  rw [show weightSum N = ((List.range N).map fun i : ℕ => ((i : ℚ) + 1) / N).sum from rfl]
  rw [list_sum_map_div, sum_range_add_one]
  field_simp
  ring

theorem weightSum_pos (N : ℕ) (h : 1 ≤ N) : 0 < weightSum N := by
  rw [weightSum_eq N h]
  positivity

theorem weightedAvg_eq_convex (w : List Pt) (hw : w ≠ []) : weightedAvg w = convexPt w := by
  have hN : 1 ≤ w.length := List.length_pos.mpr hw
  have hws : weightSum w.length ≠ 0 := ne_of_gt (weightSum_pos _ hN)
  unfold weightedAvg convexPt
  rw [Pt.mk.injEq]
  constructor
  · rw [show (fun i => stabWeight w.length i * (w.getD i ⟨0, 0⟩).x) =
        fun i => ((w.getD i ⟨0, 0⟩).x * rawWeight w.length i) / weightSum w.length by
      funext i; unfold stabWeight; ring]
    rw [list_sum_map_div]
  · rw [show (fun i => stabWeight w.length i * (w.getD i ⟨0, 0⟩).y) =
        fun i => ((w.getD i ⟨0, 0⟩).y * rawWeight w.length i) / weightSum w.length by
      funext i; unfold stabWeight; ring]
    rw [list_sum_map_div]

theorem trailWindow_ne_nil (stab : ℕ) (points : List Pt)
    (hs : 1 ≤ stab) (hne : points ≠ []) : trailWindow stab points ≠ [] := by
  have hlen : 1 ≤ points.length := List.length_pos.mpr hne
  have : (trailWindow stab points).length = min stab points.length := by
    unfold trailWindow
    rw [List.length_drop]
    omega
  intro hcon
  rw [hcon] at this
  simp at this
  omega

/-- C3: for a non-empty raw buffer and a window in [0, 20], the stabilized
point is the convex combination of the trailing `min stab len` samples under
the normalized weights `(i+1)/N / Σ`, those weights sum to 1 and strictly
increase with recency, window 0 returns the latest raw point unchanged, and
the computation depends only on the trailing window. -/
theorem stabilizer_convex_claim (stab : ℕ) (points : List Pt)
    (hstab : stab ≤ 20) (hne : points ≠ []) :
    (stab = 0 → getStabilizedPoint stab points = points.getLastD ⟨0, 0⟩) ∧
    (1 ≤ stab → getStabilizedPoint stab points = convexPt (trailWindow stab points)) ∧
    (1 ≤ stab →
      ((List.range (trailWindow stab points).length).map
        (stabWeight (trailWindow stab points).length)).sum = 1) ∧
    (∀ N i : ℕ, 1 ≤ N → i + 1 < N → stabWeight N i < stabWeight N (i + 1)) ∧
    (1 ≤ stab → stab ≤ points.length → ∀ pre : List Pt,
      getStabilizedPoint stab (pre ++ points) = getStabilizedPoint stab points) := by
  refine ⟨?_, ?_, ?_, ?_, ?_⟩
  · intro h
    simp [getStabilizedPoint, h]
  · intro h
    rw [getStabilizedPoint, if_neg (not_or.mpr ⟨by omega, hne⟩)]
    exact weightedAvg_eq_convex _ (trailWindow_ne_nil stab points h hne)
  · intro h
    have hN : 1 ≤ (trailWindow stab points).length :=
      List.length_pos.mpr (trailWindow_ne_nil stab points h hne)
    have hws : weightSum (trailWindow stab points).length ≠ 0 :=
      ne_of_gt (weightSum_pos _ hN)
    rw [show (List.range (trailWindow stab points).length).map
          (stabWeight (trailWindow stab points).length) =
        (List.range (trailWindow stab points).length).map
          (fun i => rawWeight (trailWindow stab points).length i /
            weightSum (trailWindow stab points).length) from rfl]
    rw [list_sum_map_div]
    exact div_self hws
  · intro N i hN hi
    have h1 : 0 < weightSum N := weightSum_pos N hN
    have h2 : (0 : ℚ) < N := Nat.cast_pos.mpr (by omega)
    unfold stabWeight rawWeight
    gcongr
    linarith
  · intro h hlen pre
    have hne2 : pre ++ points ≠ [] := by simp [hne]
    rw [getStabilizedPoint, if_neg (not_or.mpr ⟨by omega, hne2⟩),
      getStabilizedPoint, if_neg (not_or.mpr ⟨by omega, hne⟩)]
    refine congrArg weightedAvg ?_
    unfold trailWindow
    rw [List.length_append]
    rw [min_eq_left (by omega), min_eq_left hlen]
    rw [show pre.length + points.length - stab = pre.length + (points.length - stab) by omega]
    exact List.drop_append (points.length - stab)

theorem stabilizer_convex_claim_witness :
    getStabilizedPoint 2 [⟨0, 0⟩, ⟨3, 3⟩] = convexPt (trailWindow 2 [⟨0, 0⟩, ⟨3, 3⟩]) ∧
    getStabilizedPoint 0 [⟨0, 0⟩, ⟨3, 3⟩] = ([⟨0, 0⟩, ⟨3, 3⟩] : List Pt).getLastD ⟨0, 0⟩ :=
  ⟨(stabilizer_convex_claim 2 [⟨0, 0⟩, ⟨3, 3⟩] (by norm_num) (by simp)).2.1 (by norm_num),
   (stabilizer_convex_claim 0 [⟨0, 0⟩, ⟨3, 3⟩] (by norm_num) (by simp)).1 rfl⟩

/-! ## C9: `record` / `_addToHistory` -/

theorem addToHistory_last (s : DM) (a : HEntry) :
    (addToHistory s a).paths.getLast? = some a := by
  by_cases h : 50 < (s.paths ++ [a]).length
  · have hp : (addToHistory s a).paths = (s.paths ++ [a]).drop 1 := by
      simp only [addToHistory]
      rw [if_pos h]
    have hlen : 1 ≤ s.paths.length := by
      rw [List.length_append] at h
      simp at h
      omega
    rw [hp, List.drop_append_of_le_length hlen, List.getLast?_concat]
  · have hp : (addToHistory s a).paths = s.paths ++ [a] := by
      simp only [addToHistory]
      rw [if_neg h]
    rw [hp, List.getLast?_concat]

/-- C9: `record(entry)` clears the redo stack, appends the entry as the new
last undo entry, drops the oldest entry exactly when the stack would exceed
50, and keeps the undo stack within the 50-entry bound. -/
theorem record_claim (s : DM) (a : HEntry) :
    (addToHistory s a).redoPaths = [] ∧
    (addToHistory s a).paths.getLast? = some a ∧
    (s.paths.length < 50 → (addToHistory s a).paths = s.paths ++ [a]) ∧
    (50 ≤ s.paths.length → (addToHistory s a).paths = (s.paths ++ [a]).drop 1) ∧
    (s.paths.length ≤ 50 → (addToHistory s a).paths.length ≤ 50) := by
  by_cases h : 50 < (s.paths ++ [a]).length
  · have hp : (addToHistory s a).paths = (s.paths ++ [a]).drop 1 := by
      simp only [addToHistory]
      rw [if_pos h]
    rw [List.length_append] at h
    simp only [List.length_cons, List.length_nil] at h
    refine ⟨rfl, addToHistory_last s a, ?_, ?_, ?_⟩
    · intro hlt
      exact absurd hlt (by omega)
    · intro _
      exact hp
    · intro _
      rw [hp, List.length_drop, List.length_append]
      simp only [List.length_cons, List.length_nil]
      omega
  · have hp : (addToHistory s a).paths = s.paths ++ [a] := by
      simp only [addToHistory]
      rw [if_neg h]
    rw [List.length_append] at h
    simp only [List.length_cons, List.length_nil] at h
    refine ⟨rfl, addToHistory_last s a, ?_, ?_, ?_⟩
    · intro _
      exact hp
    · intro hge
      exact absurd hge (by omega)
    · intro _
      rw [hp, List.length_append]
      simp only [List.length_cons, List.length_nil]
      omega

theorem record_claim_witness :
    (addToHistory mkDM (.clearL 0)).paths = [] ++ [.clearL 0] ∧
    (addToHistory mkDM (.clearL 0)).redoPaths = [] :=
  ⟨(record_claim mkDM (.clearL 0)).2.2.1 (by decide), (record_claim mkDM (.clearL 0)).1⟩

/-! ## C1: undo / redo round-trip -/

theorem replayPaths_concat (n : ℕ) (c : Canvases) (L : List HEntry) (b : HEntry) :
    replayPaths n c (L ++ [b]) = applyAction n (replayPaths n c L) b := by
  rw [replayPaths, List.foldl_append]
  rfl

theorem replay_high_empty (n : ℕ) (as : List HEntry) :
    ∀ c : Canvases, (∀ j, n ≤ j → c j = []) →
      (∀ a ∈ as, entryOK n a = true) → ∀ j, n ≤ j → replayPaths n c as j = [] := by
  induction as with
  | nil =>
    intro c hc _ j hj
    exact hc j hj
  | cons a t ih =>
    intro c hc hok j hj
    rw [show replayPaths n c (a :: t) = replayPaths n (applyAction n c a) t from rfl]
    refine ih _ ?_ (fun a' ha' => hok a' (List.mem_cons_of_mem _ ha')) j hj
    intro j' hj'
    cases a with
    | path d =>
      have hd : d.layerIndex < n := by
        have := hok (.path d) (List.mem_cons_self _ _)
        simpa [entryOK] using this
      simp only [applyAction, drawOn]
      rw [if_neg (by omega)]
      exact hc j' hj'
    | clearL li =>
      have hli : li < n := by
        have := hok (.clearL li) (List.mem_cons_self _ _)
        simpa [entryOK] using this
      simp only [applyAction, clearCanvas]
      rw [if_neg (by omega)]
      exact hc j' hj'
    | clearAllL =>
      simp only [applyAction, clearAllUpTo]
      rw [if_neg (by omega)]
      exact hc j' hj'

theorem clearAll_of_consistent (n : ℕ) (as : List HEntry)
    (hok : ∀ a ∈ as, entryOK n a = true) :
    clearAllUpTo (replayPaths n emptyCanvases as) n = emptyCanvases := by
  funext j
  by_cases hj : j < n
  · simp [clearAllUpTo, hj, emptyCanvases]
  · simp only [clearAllUpTo]
    rw [if_neg hj]
    rw [replay_high_empty n as emptyCanvases (fun _ _ => rfl) hok j (by omega)]
    rfl

theorem undo_concat (s : DM) (L : List HEntry) (b : HEntry) (h : s.paths = L ++ [b]) :
    undo s = (true,
      { s with
        paths := L
        redoPaths := s.redoPaths ++ [b]
        canvases := replayPaths s.layers.length
          (clearAllUpTo s.canvases s.layers.length) L
        outbox := pushOut s ⟨"drawing", "undo"⟩ }) := by
  unfold undo
  rw [h, List.getLast?_concat]
  simp [List.dropLast_concat]

theorem redo_concat (s : DM) (L : List HEntry) (b : HEntry) (h : s.redoPaths = L ++ [b]) :
    redo s = (true,
      { s with
        redoPaths := L
        paths := s.paths ++ [b]
        canvases := applyAction s.layers.length s.canvases b
        outbox := pushOut s ⟨"drawing", "redo"⟩ }) := by
  unfold redo
  rw [h, List.getLast?_concat]
  simp [List.dropLast_concat]

/-- C1: `undo` on a non-empty undo stack pops the last entry onto the redo
stack and rebuilds the layer surfaces by clearing them and replaying the
remaining entries; `redo` pops that entry back and applies just it; on a
state whose surfaces are the replay of its history (and whose history only
touches live layers) the round-trip restores the exact surfaces and both
stacks; on an empty stack each operation returns false with the state
unchanged. -/
theorem undo_redo_claim (s : DM) :
    (s.paths = [] → undo s = (false, s)) ∧
    (s.redoPaths = [] → redo s = (false, s)) ∧
    (∀ h : s.paths ≠ [],
      (undo s).1 = true ∧
      (undo s).2.paths = s.paths.dropLast ∧
      (undo s).2.redoPaths = s.redoPaths ++ [s.paths.getLast h] ∧
      (undo s).2.canvases =
        replayPaths s.layers.length (clearAllUpTo s.canvases s.layers.length)
          s.paths.dropLast) ∧
    (∀ h : s.redoPaths ≠ [],
      (redo s).1 = true ∧
      (redo s).2.redoPaths = s.redoPaths.dropLast ∧
      (redo s).2.paths = s.paths ++ [s.redoPaths.getLast h] ∧
      (redo s).2.canvases =
        applyAction s.layers.length s.canvases (s.redoPaths.getLast h)) ∧
    (s.paths ≠ [] →
      s.canvases = replayPaths s.layers.length emptyCanvases s.paths →
      (∀ a ∈ s.paths, entryOK s.layers.length a = true) →
      (redo (undo s).2).2.paths = s.paths ∧
      (redo (undo s).2).2.redoPaths = s.redoPaths ∧
      (redo (undo s).2).2.canvases = s.canvases) := by
  refine ⟨?_, ?_, ?_, ?_, ?_⟩
  · intro h
    unfold undo
    rw [h]
    rfl
  · intro h
    unfold redo
    rw [h]
    rfl
  · intro h
    rcases List.eq_nil_or_concat s.paths with h0 | ⟨L, b, hLb⟩
    · exact absurd h0 h
    · rw [List.concat_eq_append] at hLb
      have hu := undo_concat s L b hLb
      have hlast : s.paths.getLast h = b :=
        Option.some_injective _
          ((List.getLast?_eq_getLast _ h).symm.trans
            (by rw [hLb]; exact List.getLast?_concat _))
      rw [hu, hlast, hLb, List.dropLast_concat]
      exact ⟨rfl, rfl, rfl, rfl⟩
  · intro h
    rcases List.eq_nil_or_concat s.redoPaths with h0 | ⟨L, b, hLb⟩
    · exact absurd h0 h
    · rw [List.concat_eq_append] at hLb
      have hr := redo_concat s L b hLb
      have hlast : s.redoPaths.getLast h = b :=
        Option.some_injective _
          ((List.getLast?_eq_getLast _ h).symm.trans
            (by rw [hLb]; exact List.getLast?_concat _))
      rw [hr, hlast, hLb, List.dropLast_concat]
      exact ⟨rfl, rfl, rfl, rfl⟩
  · intro h hcons hok
    rcases List.eq_nil_or_concat s.paths with h0 | ⟨L, b, hLb⟩
    · exact absurd h0 h
    · rw [List.concat_eq_append] at hLb
      have hu := undo_concat s L b hLb
      have hclear : clearAllUpTo s.canvases s.layers.length = emptyCanvases := by
        rw [hcons]
        exact clearAll_of_consistent _ _ hok
      have hr := redo_concat (undo s).2 s.redoPaths b (by rw [hu])
      rw [hr]
      refine ⟨?_, ?_, ?_⟩
      · rw [show ((undo s).2).paths = L by rw [hu]]
        exact hLb.symm
      · rfl
      · rw [show ((undo s).2).canvases =
            replayPaths s.layers.length (clearAllUpTo s.canvases s.layers.length) L by
          rw [hu]]
        rw [show ((undo s).2).layers = s.layers by rw [hu]]
        rw [hclear, ← replayPaths_concat, ← hLb]
        exact hcons.symm

theorem undo_redo_claim_witness :
    (redo (undo dmRT).2).2.paths = dmRT.paths ∧
    (redo (undo dmRT).2).2.redoPaths = dmRT.redoPaths ∧
    (redo (undo dmRT).2).2.canvases = dmRT.canvases :=
  (undo_redo_claim dmRT).2.2.2.2 (by decide) rfl (by decide)

/-! ## C10: remote undo/redo re-broadcast -/

theorem handleRemote_undo (s : DM) (m : RMsg) (hm : m.rtype = "undo") :
    handleRemoteDrawing s m = (undo s).2 := by
  unfold handleRemoteDrawing
  rw [hm]
  simp

theorem handleRemote_redo (s : DM) (m : RMsg) (hm : m.rtype = "redo") :
    handleRemoteDrawing s m = (redo s).2 := by
  unfold handleRemoteDrawing
  rw [hm]
  simp

/-- C10: an inbound `drawing` message of type `undo` (`redo`) on a non-empty
undo (redo) stack performs the local undo (redo) through the same entry
point and additionally emits a fresh outbound `drawing` message of the same
type on the socket. -/
theorem remote_undo_redo_rebroadcast_claim (s : DM) (hsock : s.hasSocket = true) :
    (∀ m : RMsg, m.rtype = "undo" → s.paths ≠ [] →
      (handleRemoteDrawing s m).outbox = s.outbox ++ [⟨"drawing", "undo"⟩] ∧
      (handleRemoteDrawing s m).paths = s.paths.dropLast) ∧
    (∀ m : RMsg, m.rtype = "redo" → s.redoPaths ≠ [] →
      (handleRemoteDrawing s m).outbox = s.outbox ++ [⟨"drawing", "redo"⟩] ∧
      (handleRemoteDrawing s m).redoPaths = s.redoPaths.dropLast) := by
  constructor
  · intro m hm h
    rcases List.eq_nil_or_concat s.paths with h0 | ⟨L, b, hLb⟩
    · exact absurd h0 h
    · rw [List.concat_eq_append] at hLb
      rw [handleRemote_undo s m hm, undo_concat s L b hLb]
      exact ⟨by simp [pushOut, hsock], by rw [hLb, List.dropLast_concat]⟩
  · intro m hm h
    rcases List.eq_nil_or_concat s.redoPaths with h0 | ⟨L, b, hLb⟩
    · exact absurd h0 h
    · rw [List.concat_eq_append] at hLb
      rw [handleRemote_redo s m hm, redo_concat s L b hLb]
      exact ⟨by simp [pushOut, hsock], by rw [hLb, List.dropLast_concat]⟩

theorem remote_undo_redo_rebroadcast_claim_witness :
    (handleRemoteDrawing dmRT ⟨"undo", 0, 0, 0, "", 0, "", 0, ""⟩).outbox =
      dmRT.outbox ++ [⟨"drawing", "undo"⟩] :=
  ((remote_undo_redo_rebroadcast_claim dmRT rfl).1 ⟨"undo", 0, 0, 0, "", 0, "", 0, ""⟩
    rfl (by decide)).1

/-! ## C4: layer count and selection invariant -/

theorem spliceRemoveAt_length {α : Type} (l : List α) (i : ℤ) :
    l.length - 1 ≤ (spliceRemoveAt l i).length ∧ (spliceRemoveAt l i).length ≤ l.length := by
  unfold spliceRemoveAt
  rw [List.length_append, List.length_take, List.length_drop]
  omega

theorem swapAdj_length {α : Type} (l : List α) (k : ℕ) : (swapAdj l k).length = l.length := by
  induction l generalizing k with
  | nil => rfl
  | cons a t ih =>
    cases t with
    | nil => cases k <;> rfl
    | cons b t2 =>
      cases k with
      | zero => rfl
      | succ n => simp [swapAdj, ih]

/-- C4: the layer count never drops below 1 — `removeLayer` on a single-layer
state returns false with the state unchanged — and each layer operation
(add, remove, select, move up, move down) preserves the invariant that
`currentLayerIndex` indexes a live layer. -/
theorem layer_invariant_claim :
    (∀ (s : DM) (i : ℤ), s.layers.length = 1 → removeLayerP s i = (false, s)) ∧
    (∀ s : DM, LayerInv s →
      (∀ nm : String, LayerInv (addLayerP s nm).2) ∧
      (∀ i : ℤ, LayerInv (removeLayerP s i).2) ∧
      (∀ i : ℤ, LayerInv (selectLayerP s i).2) ∧
      (∀ i : ℤ, LayerInv (moveLayerUpP s i).2) ∧
      (∀ i : ℤ, LayerInv (moveLayerDownP s i).2)) := by
  constructor
  · intro s i h
    unfold removeLayerP
    rw [if_pos (by omega)]
  · intro s hs
    obtain ⟨hne, hcur⟩ := hs
    have hlen : 1 ≤ s.layers.length := List.length_pos.mpr hne
    refine ⟨?_, ?_, ?_, ?_, ?_⟩
    · intro nm
      refine ⟨by simp [addLayerP], ?_⟩
      show s.layers.length < (s.layers ++ [mkLayer s.layers.length nm]).length
      rw [List.length_append]
      simp
    · intro i
      unfold removeLayerP
      by_cases h1 : s.layers.length ≤ 1
      · rw [if_pos h1]
        exact ⟨hne, hcur⟩
      · rw [if_neg h1]
        have hsp := spliceRemoveAt_length s.layers i
        constructor
        · show spliceRemoveAt s.layers i ≠ []
          exact List.length_pos.mp (by omega)
        · show (if (spliceRemoveAt s.layers i).length ≤ s.currentLayerIndex
              then (spliceRemoveAt s.layers i).length - 1
              else s.currentLayerIndex) < (spliceRemoveAt s.layers i).length
          split_ifs with h2 <;> omega
    · intro i
      unfold selectLayerP
      split_ifs with h1
      · exact ⟨hne, by show i.toNat < s.layers.length; omega⟩
      · exact ⟨hne, hcur⟩
    · intro i
      unfold moveLayerUpP
      split_ifs with h1
      · have hsw := swapAdj_length s.layers i.toNat
        constructor
        · show swapAdj s.layers i.toNat ≠ []
          exact List.length_pos.mp (by omega)
        · show (if s.currentLayerIndex = i.toNat then i.toNat + 1
              else if s.currentLayerIndex = i.toNat + 1 then i.toNat
              else s.currentLayerIndex) < (swapAdj s.layers i.toNat).length
          rw [hsw]
          split_ifs <;> omega
      · exact ⟨hne, hcur⟩
    · intro i
      unfold moveLayerDownP
      split_ifs with h1
      · have hsw := swapAdj_length s.layers (i.toNat - 1)
        constructor
        · show swapAdj s.layers (i.toNat - 1) ≠ []
          exact List.length_pos.mp (by omega)
        · show (if s.currentLayerIndex = i.toNat then i.toNat - 1
              else if s.currentLayerIndex = i.toNat - 1 then i.toNat
              else s.currentLayerIndex) < (swapAdj s.layers (i.toNat - 1)).length
          rw [hsw]
          split_ifs <;> omega
      · exact ⟨hne, hcur⟩

theorem layer_invariant_claim_witness :
    removeLayerP mkDM 0 = (false, mkDM) ∧ LayerInv (addLayerP mkDM "Layer 2").2 :=
  ⟨layer_invariant_claim.1 mkDM 0 (by decide),
   (layer_invariant_claim.2 mkDM ⟨by decide, by decide⟩).1 "Layer 2"⟩

/-! ## C8: adjacent layer reordering -/

theorem swapAdj_getD_fst {α : Type} (l : List α) (k : ℕ) (d : α) (h : k + 1 < l.length) :
    (swapAdj l k).getD k d = l.getD (k + 1) d := by
  induction l generalizing k with
  | nil => simp at h
  | cons a t ih =>
    cases t with
    | nil => simp at h
    | cons b t2 =>
      cases k with
      | zero => rfl
      | succ n =>
        simp only [swapAdj, List.getD_cons_succ]
        refine ih n ?_
        simp only [List.length_cons] at h ⊢
        omega

theorem swapAdj_getD_snd {α : Type} (l : List α) (k : ℕ) (d : α) (h : k + 1 < l.length) :
    (swapAdj l k).getD (k + 1) d = l.getD k d := by
  induction l generalizing k with
  | nil => simp at h
  | cons a t ih =>
    cases t with
    | nil => simp at h
    | cons b t2 =>
      cases k with
      | zero => rfl
      | succ n =>
        simp only [swapAdj, List.getD_cons_succ]
        refine ih n ?_
        simp only [List.length_cons] at h ⊢
        omega

theorem swapAdj_getD_other {α : Type} (l : List α) (k j : ℕ) (d : α)
    (h1 : j ≠ k) (h2 : j ≠ k + 1) :
    (swapAdj l k).getD j d = l.getD j d := by
  induction l generalizing k j with
  | nil => rfl
  | cons a t ih =>
    cases t with
    | nil => cases k <;> rfl
    | cons b t2 =>
      cases k with
      | zero =>
        obtain ⟨j2, rfl⟩ : ∃ j2, j = j2 + 2 := ⟨j - 2, by omega⟩
        simp [swapAdj, List.getD_cons_succ]
      | succ n =>
        cases j with
        | zero => rfl
        | succ j2 =>
          simp only [swapAdj, List.getD_cons_succ]
          exact ih n j2 (by omega) (by omega)

theorem moveLayerUpP_pos (s : DM) (i : ℤ) (h : 0 ≤ i ∧ i < (s.layers.length : ℤ) - 1) :
    moveLayerUpP s i = (true,
      { s with
        layers := swapAdj s.layers i.toNat
        currentLayerIndex :=
          if s.currentLayerIndex = i.toNat then i.toNat + 1
          else if s.currentLayerIndex = i.toNat + 1 then i.toNat
          else s.currentLayerIndex
        outbox := pushOut s ⟨"layerAction", "move"⟩ }) := by
  unfold moveLayerUpP
  rw [if_pos h]

theorem moveLayerDownP_pos (s : DM) (i : ℤ) (h : 0 < i ∧ i < (s.layers.length : ℤ)) :
    moveLayerDownP s i = (true,
      { s with
        layers := swapAdj s.layers (i.toNat - 1)
        currentLayerIndex :=
          if s.currentLayerIndex = i.toNat then i.toNat - 1
          else if s.currentLayerIndex = i.toNat - 1 then i.toNat
          else s.currentLayerIndex
        outbox := pushOut s ⟨"layerAction", "move"⟩ }) := by
  unfold moveLayerDownP
  rw [if_pos h]

/-- C8: `moveLayerUp`/`moveLayerDown` swap the layer at the index with its
adjacent neighbor and return true, remap `currentLayerIndex` whenever it
pointed at either swapped slot so the same logical layer stays selected, and
return false with the state unchanged at the sequence bounds or any
out-of-range index. -/
theorem move_layer_claim (s : DM) (i : ℤ) (hcur : s.currentLayerIndex < s.layers.length) :
    (0 ≤ i ∧ i < (s.layers.length : ℤ) - 1 →
      (moveLayerUpP s i).1 = true ∧
      (moveLayerUpP s i).2.layers.length = s.layers.length ∧
      (moveLayerUpP s i).2.layers.getD i.toNat layerDefault
        = s.layers.getD (i.toNat + 1) layerDefault ∧
      (moveLayerUpP s i).2.layers.getD (i.toNat + 1) layerDefault
        = s.layers.getD i.toNat layerDefault ∧
      (∀ j, j ≠ i.toNat → j ≠ i.toNat + 1 →
        (moveLayerUpP s i).2.layers.getD j layerDefault = s.layers.getD j layerDefault) ∧
      (moveLayerUpP s i).2.currentLayerIndex =
        (if s.currentLayerIndex = i.toNat then i.toNat + 1
         else if s.currentLayerIndex = i.toNat + 1 then i.toNat
         else s.currentLayerIndex) ∧
      (moveLayerUpP s i).2.layers.getD (moveLayerUpP s i).2.currentLayerIndex layerDefault
        = s.layers.getD s.currentLayerIndex layerDefault) ∧
    (¬(0 ≤ i ∧ i < (s.layers.length : ℤ) - 1) → moveLayerUpP s i = (false, s)) ∧
    (0 < i ∧ i < (s.layers.length : ℤ) →
      (moveLayerDownP s i).1 = true ∧
      (moveLayerDownP s i).2.layers.length = s.layers.length ∧
      (moveLayerDownP s i).2.layers.getD (i.toNat - 1) layerDefault
        = s.layers.getD i.toNat layerDefault ∧
      (moveLayerDownP s i).2.layers.getD i.toNat layerDefault
        = s.layers.getD (i.toNat - 1) layerDefault ∧
      (∀ j, j ≠ i.toNat - 1 → j ≠ i.toNat →
        (moveLayerDownP s i).2.layers.getD j layerDefault = s.layers.getD j layerDefault) ∧
      (moveLayerDownP s i).2.currentLayerIndex =
        (if s.currentLayerIndex = i.toNat then i.toNat - 1
         else if s.currentLayerIndex = i.toNat - 1 then i.toNat
         else s.currentLayerIndex) ∧
      (moveLayerDownP s i).2.layers.getD (moveLayerDownP s i).2.currentLayerIndex layerDefault
        = s.layers.getD s.currentLayerIndex layerDefault) ∧
    (¬(0 < i ∧ i < (s.layers.length : ℤ)) → moveLayerDownP s i = (false, s)) := by
  refine ⟨?_, ?_, ?_, ?_⟩
  · intro h
    rw [moveLayerUpP_pos s i h]
    dsimp only
    have hk : i.toNat + 1 < s.layers.length := by omega
    refine ⟨rfl, swapAdj_length _ _, swapAdj_getD_fst _ _ _ hk, swapAdj_getD_snd _ _ _ hk,
      fun j hj1 hj2 => swapAdj_getD_other _ _ _ _ hj1 hj2, rfl, ?_⟩
    by_cases hc1 : s.currentLayerIndex = i.toNat
    · rw [if_pos hc1, swapAdj_getD_snd _ _ _ hk, hc1]
    · by_cases hc2 : s.currentLayerIndex = i.toNat + 1
      · rw [if_neg hc1, if_pos hc2, swapAdj_getD_fst _ _ _ hk, hc2]
      · rw [if_neg hc1, if_neg hc2, swapAdj_getD_other _ _ _ _ hc1 hc2]
  · intro h
    unfold moveLayerUpP
    rw [if_neg h]
  · intro h
    rw [moveLayerDownP_pos s i h]
    dsimp only
    obtain ⟨k2, hk2⟩ : ∃ k2, i.toNat = k2 + 1 := ⟨i.toNat - 1, by omega⟩
    have hk : k2 + 1 < s.layers.length := by omega
    rw [hk2]
    simp only [Nat.add_sub_cancel]
    refine ⟨trivial, swapAdj_length _ _, swapAdj_getD_fst _ _ _ hk, swapAdj_getD_snd _ _ _ hk,
      fun j hj1 hj2 => swapAdj_getD_other _ _ _ _ hj1 hj2, trivial, ?_⟩
    by_cases hc1 : s.currentLayerIndex = k2 + 1
    · rw [if_pos hc1, swapAdj_getD_fst _ _ _ hk, hc1]
    · by_cases hc2 : s.currentLayerIndex = k2
      · rw [if_neg hc1, if_pos hc2, swapAdj_getD_snd _ _ _ hk, hc2]
      · rw [if_neg hc1, if_neg hc2, swapAdj_getD_other _ _ _ _ hc2 hc1]
  · intro h
    unfold moveLayerDownP
    rw [if_neg h]

theorem move_layer_claim_witness :
    (moveLayerUpP dm3 0).1 = true ∧
    (moveLayerUpP dm3 0).2.layers.getD 0 layerDefault = dm3.layers.getD 1 layerDefault ∧
    (moveLayerUpP dm3 0).2.layers.getD (moveLayerUpP dm3 0).2.currentLayerIndex layerDefault
      = dm3.layers.getD dm3.currentLayerIndex layerDefault :=
  have h := (move_layer_claim dm3 0 (by decide)).1 (by decide)
  ⟨h.1, h.2.2.1, h.2.2.2.2.2.2⟩

/-! ## C6: remote stroke builder -/

/-- C6 (amended): the module keeps a single remote-stroke builder shared by
all peers (the wire message carries no sender identity): `start` overwrites
the builder regardless of any prior state (last-start-wins), `move` appends
to the active builder and is a no-op without one, and `end` records the
builder's full point sequence into history (clearing the redo stack) and
discards the builder, and is a no-op without one. -/
theorem remote_builder_claim (s : DM) (m : RMsg) :
    (startRemote s m).remoteDrawing = some
      ⟨m.layerIndex, jsOrS m.color "#000000", jsOrQ m.size 5, jsOrS m.brush "pen",
        jsOrQ m.opacity 1, jsOrS m.blendMode "source-over", [⟨m.x, m.y⟩]⟩ ∧
    (s.remoteDrawing = none → moveRemote s m = s) ∧
    (∀ b, s.remoteDrawing = some b →
      (moveRemote s m).remoteDrawing =
        some { b with points := b.points ++ [⟨m.x, m.y⟩] }) ∧
    (s.remoteDrawing = none → endRemote s m = s) ∧
    (∀ b, s.remoteDrawing = some b →
      (endRemote s m).remoteDrawing = none ∧
      (endRemote s m).paths.getLast? = some (.path b) ∧
      (endRemote s m).redoPaths = []) := by
  refine ⟨rfl, ?_, ?_, ?_, ?_⟩
  · intro h
    unfold moveRemote
    rw [h]
  · intro b h
    unfold moveRemote
    rw [h]
  · intro h
    unfold endRemote
    rw [h]
  · intro b h
    unfold endRemote
    rw [h]
    exact ⟨rfl, addToHistory_last s (.path b), rfl⟩

theorem remote_builder_claim_witness :
    (endRemote { mkDM with remoteDrawing := some penStroke } endMsg).remoteDrawing = none ∧
    (endRemote { mkDM with remoteDrawing := some penStroke } endMsg).paths.getLast? =
      some (.path penStroke) := by
  have h := (remote_builder_claim { mkDM with remoteDrawing := some penStroke }
    endMsg).2.2.2.2 penStroke rfl
  exact ⟨h.1, h.2.1⟩

/-- C6 counterexample to per-peer keying: on the interleaving A-start,
B-start, A-end, a per-peer builder map (the spec-side model) records A's
single-point stroke, while the code's shared builder records B's — the
second `start` overwrote A's builder even though it came from another
peer. -/
theorem remote_builder_counterexample :
    (perPeerRun interleavedMsgs).history =
      [.path ⟨0, "#000000", 5, "pen", 1, "source-over", [⟨1, 1⟩]⟩] ∧
    (codeRun mkDM interleavedMsgs).paths =
      [.path ⟨0, "#000000", 5, "pen", 1, "source-over", [⟨2, 2⟩]⟩] ∧
    (perPeerRun interleavedMsgs).history ≠ (codeRun mkDM interleavedMsgs).paths := by
  have h1 : (perPeerRun interleavedMsgs).history =
      [.path ⟨0, "#000000", 5, "pen", 1, "source-over", [⟨1, 1⟩]⟩] := by
    simp [perPeerRun, interleavedMsgs, perPeerStep, startMsgAt, endMsg, jsOrQ, jsOrS,
      List.lookup, beq_iff_eq]
  have h2 : (codeRun mkDM interleavedMsgs).paths =
      [.path ⟨0, "#000000", 5, "pen", 1, "source-over", [⟨2, 2⟩]⟩] := by
    simp [codeRun, interleavedMsgs, handleRemoteDrawing, startRemote, endRemote, startMsgAt,
      endMsg, jsOrQ, jsOrS, mkDM, addToHistory, extendLayers, extendLayersGo]
  refine ⟨h1, h2, ?_⟩
  rw [h1, h2]
  norm_num [Pt.mk.injEq]

/-! ## C5: stroke replay determinism -/

/-- C5 (amended): for every recorded stroke with at least two points and any
brush other than the airbrush, the replay trace is independent of the random
stream — replay is a pure function of the stroke's recorded parameters and
points. The airbrush is excluded: its spray consumes the random stream. -/
theorem replay_deterministic_claim (d : StrokeData) (r1 r2 : List ℚ)
    (hpts : 2 ≤ d.points.length) (hbrush : d.brush ≠ "airbrush") :
    replayPathTrace d r1 = replayPathTrace d r2 := by
  unfold replayPathTrace
  simp [hbrush]

theorem replay_deterministic_claim_witness :
    replayPathTrace penStroke [] = replayPathTrace penStroke [5] :=
  replay_deterministic_claim penStroke [] [5] (by decide) (by decide)

/-- C5 counterexample to determinism for the airbrush: the same two-point
airbrush stroke replayed under two different random streams issues different
canvas commands (different spray radii and alphas). -/
theorem replay_random_counterexample :
    2 ≤ dAir.points.length ∧
    replayPathTrace dAir (List.replicate 8 0) ≠
      replayPathTrace dAir (List.replicate 8 (1 / 2)) := by
  constructor
  · decide
  · norm_num [replayPathTrace, dAir, sprayAllOps, particleOps, sprayCount, midSegOps,
      List.range_succ, replayBrushParams, List.cons_ne_nil, List.replicate_succ]

/-! ## C7: brush parameter mapping -/

/-- C7 counterexample: the claim says the mapping is applied identically for
local drawing and replay with the pencil compositing as source-over; but the
replay settings keep the pencil's composite at the recorded blend mode. -/
theorem brush_params_counterexample :
    localBrushParams "pencil" 5 1 "multiply" "#112233" ≠
      replayBrushParams "pencil" 5 1 "multiply" "#112233" ∧
    (localBrushParams "pencil" 5 1 "multiply" "#112233").comp = "source-over" ∧
    (replayBrushParams "pencil" 5 1 "multiply" "#112233").comp = "multiply" := by
  refine ⟨?_, ?_, ?_⟩
  · simp [localBrushParams, replayBrushParams, BrushParams.mk.injEq]
  · simp [localBrushParams]
  · simp [replayBrushParams]

/-- C7 (amended): the brush parameter mapping is a pure function of
(brushType, size, opacity, blendMode, color), identical for local drawing
and replay for every brush except the pencil; the per-brush values are as
listed, except that the pencil's replayed composite operation is the
stroke's recorded blend mode rather than source-over; any unknown brush
yields the pen parameters in both mappings. -/
theorem brush_params_claim (brush : String) (size opacity : ℚ) (blendMode color : String) :
    (brush ≠ "pencil" →
      localBrushParams brush size opacity blendMode color =
        replayBrushParams brush size opacity blendMode color) ∧
    localBrushParams "pen" size opacity blendMode color =
      ⟨opacity, size, blendMode, "round", "round", color⟩ ∧
    localBrushParams "pencil" size opacity blendMode color =
      ⟨opacity * 0.8, size * 0.5, "source-over", "round", "round", color⟩ ∧
    localBrushParams "brush" size opacity blendMode color =
      ⟨opacity * 0.9, size * 2, blendMode, "round", "round", color⟩ ∧
    localBrushParams "marker" size opacity blendMode color =
      ⟨0.6, size * 3, "multiply", "square", "miter", color⟩ ∧
    localBrushParams "eraser" size opacity blendMode color =
      ⟨1, size * 2, "destination-out", "round", "round", "#000000"⟩ ∧
    localBrushParams "airbrush" size opacity blendMode color =
      ⟨0.2, size * 0.5, blendMode, "round", "round", color⟩ ∧
    replayBrushParams "pencil" size opacity blendMode color =
      ⟨opacity * 0.8, size * 0.5, blendMode, "round", "round", color⟩ ∧
    (brush ∉ (["pen", "pencil", "brush", "marker", "eraser", "airbrush"] : List String) →
      localBrushParams brush size opacity blendMode color =
        ⟨opacity, size, blendMode, "round", "round", color⟩ ∧
      replayBrushParams brush size opacity blendMode color =
        ⟨opacity, size, blendMode, "round", "round", color⟩) := by
  refine ⟨?_, ?_, ?_, ?_, ?_, ?_, ?_, ?_, ?_⟩
  · intro h
    by_cases h1 : brush = "pen"
    · subst h1; simp [localBrushParams, replayBrushParams]
    · by_cases h2 : brush = "brush"
      · subst h2; simp [localBrushParams, replayBrushParams]
      · by_cases h3 : brush = "marker"
        · subst h3; simp [localBrushParams, replayBrushParams]
        · by_cases h4 : brush = "eraser"
          · subst h4; simp [localBrushParams, replayBrushParams]
          · by_cases h5 : brush = "airbrush"
            · subst h5; simp [localBrushParams, replayBrushParams]
            · simp [localBrushParams, replayBrushParams, h, h1, h2, h3, h4, h5]
  · simp [localBrushParams]
  · simp [localBrushParams]
  · simp [localBrushParams]
  · simp [localBrushParams]
  · simp [localBrushParams]
  · simp [localBrushParams]
  · simp [replayBrushParams]
  · intro h
    simp only [List.mem_cons, List.not_mem_nil, or_false, not_or] at h
    obtain ⟨h1, h2, h3, h4, h5, h6⟩ := h
    constructor
    · simp [localBrushParams, h1, h2, h3, h4, h5, h6]
    · simp [replayBrushParams, h1, h2, h3, h4, h5, h6]

theorem brush_params_claim_witness :
    localBrushParams "marker" 5 1 "source-over" "#000000" =
      replayBrushParams "marker" 5 1 "source-over" "#000000" :=
  (brush_params_claim "marker" 5 1 "source-over" "#000000").1 (by decide)
